import Mathlib

/-!
Verification of the MindBuffer/compressor crate's gain-computation pipeline.

Samples, envelope values, gains, thresholds and slopes (all `f32`/`f64` in the
source) are embedded as exact rationals; the exponential-smoothing coefficient
derivation performed inside the external `envelope_detector` crate is kept
abstract as a function from a stored frames count to a coefficient.
-/

namespace Spec2Proof

/-- calc_slope from src/lib.rs: the slope `1 - 1/ratio` derived from a
compression ratio. -/
def calc_slope (ratio : ℚ) : ℚ := 1 - 1 / ratio

/-- The Compressor struct of src/lib.rs, generic over its envelope detector
type `D` (the detector implementation lives in the external envelope_detector
crate).  The two `PhantomData` fields carry no data and are dropped. -/
structure Compressor (D : Type) where
  envelope_detector : D
  attack_ms : ℚ
  release_ms : ℚ
  threshold : ℚ
  slope : ℚ

/-- Compressor::new from src/lib.rs: build the compressor from its parts,
deriving `slope` from `ratio` via calc_slope; `ratio` itself is not stored. -/
def Compressor.new {D : Type} (detector : D)
    (attack_ms release_ms threshold ratio : ℚ) : Compressor D :=
  { envelope_detector := detector
    attack_ms := attack_ms
    release_ms := release_ms
    threshold := threshold
    slope := calc_slope ratio }

/-- The per-channel body of Compressor::next_gain_per_channel
(src/lib.rs lines 138-141): clamp the updated envelope value `s` to at most
the sample identity 1, then apply the threshold/slope gain law. -/
def gain_per_channel (threshold slope s : ℚ) : ℚ :=
  let s2 := if s > 1 then 1 else s
  if s2 > threshold then 1 - (s2 - threshold) * slope else 1

/-- Compressor::next_gain_per_channel from src/lib.rs: the updated envelope
frame produced by the external detector for the input frame (one value per
channel) is mapped through the gain law. -/
def Compressor.next_gain_per_channel {D : Type} (c : Compressor D)
    (env_frame : List ℚ) : List ℚ :=
  env_frame.map (gain_per_channel c.threshold c.slope)

/-- State of the Compressor as used by src/even_gain_fn.rs and src/dsp_node.rs
(the crate revision those files compile against), with the state of the
external multi-channel envelope detector inlined: the attack/release (and RMS
window) sizes in frames set through set_attack_frames/set_release_frames/
set_window_frames, and one envelope value per channel. -/
structure CompressorState where
  attack_ms : ℚ
  release_ms : ℚ
  window_ms : ℚ
  threshold : ℚ
  slope : ℚ
  attack_frames : ℚ
  release_frames : ℚ
  window_frames : ℚ
  envs : List ℚ

/-- Modelled from the spec: the millisecond-to-sample-count conversion
Ms::samples of the external time_calc crate used by lib.rs, per the section
4.1 formula `ms_in_samples = duration_ms * sample_rate / 1000`. -/
def ms_samples (ms hz : ℚ) : ℚ := ms * hz / 1000

/-- Compressor::update_attack_to_sample_hz from src/lib.rs: re-derive the
detector's attack size in frames from `attack_ms` and the given sample rate. -/
def update_attack_to_sample_hz (c : CompressorState) (hz : ℚ) : CompressorState :=
  { c with attack_frames := ms_samples c.attack_ms hz }

/-- Compressor::update_release_to_sample_hz from src/lib.rs. -/
def update_release_to_sample_hz (c : CompressorState) (hz : ℚ) : CompressorState :=
  { c with release_frames := ms_samples c.release_ms hz }

/-- RmsCompressor::update_window_to_sample_hz from src/lib.rs. -/
def update_window_to_sample_hz (c : CompressorState) (hz : ℚ) : CompressorState :=
  { c with window_frames := ms_samples c.window_ms hz }

/-- Modelled from the spec: set_channels (missing from src/, called by
src/dsp_node.rs) resizes channel_envelopes to the new channel count,
initializing newly grown channels at the silent value zero (section 4.1). -/
def set_channels (c : CompressorState) (n : ℕ) : CompressorState :=
  { c with envs := c.envs.take n ++ List.replicate (n - c.envs.length) 0 }

/-- Modelled from the spec: the peak envelope step of section 4.1, implemented
by the external envelope_detector crate — rectify the sample, then apply
attack smoothing when the magnitude rises above the stored envelope and
release smoothing otherwise. -/
def envelope_step (attack_c release_c env sample : ℚ) : ℚ :=
  let mag := |sample|
  if mag > env then mag + attack_c * (env - mag)
  else mag + release_c * (env - mag)

/-- Modelled from the spec: Compressor::next_gain_for_channel (missing from
src/, called by src/even_gain_fn.rs and src/dsp_node.rs) — advance channel
`j`'s envelope by the sample (section 4.1) and apply the gain law of section
4.2.  `k` derives a smoothing coefficient from a stored frames count
(externally `exp (-1/frames)`). -/
def next_gain_for_channel (k : ℚ → ℚ) (c : CompressorState) (j : ℕ)
    (sample : ℚ) : ℚ × CompressorState :=
  let env := envelope_step (k c.attack_frames) (k c.release_frames)
    (c.envs.getD j 0) sample
  let gain := if env > c.threshold then 1 - (env - c.threshold) * c.slope else 1
  (gain, { c with envs := c.envs.set j env })

/-- The per-channel gains produced, in order, by repeated
next_gain_for_channel calls with an incrementing channel index — the values
the even-gain loops of src/even_gain_fn.rs fold over. -/
def channel_gains (k : ℚ → ℚ) (c : CompressorState) (idx : ℕ) :
    List ℚ → List ℚ
  | [] => []
  | s :: rest =>
    let r := next_gain_for_channel k c idx s
    r.1 :: channel_gains k r.2 (idx + 1) rest

/-- The for-loop of Average::next_gain (src/even_gain_fn.rs): accumulate the
sum of the channel gains and count the channel index. -/
def Average.loop (k : ℚ → ℚ) (c : CompressorState) (sum : ℚ) (idx : ℕ) :
    List ℚ → ℚ × ℕ × CompressorState
  | [] => (sum, idx, c)
  | s :: rest =>
    let r := next_gain_for_channel k c idx s
    Average.loop k r.2 (sum + r.1) (idx + 1) rest

/-- The f32 division `sum / channel_idx as f32` closing Average::next_gain:
`none` models the non-finite (NaN) f32 result, which arises exactly when
`channel_idx = 0` (the loop then left `sum = 0.0`, and `0.0 / 0.0` is NaN). -/
def f32_div (a b : ℚ) : Option ℚ := if b = 0 then none else some (a / b)

/-- Average::next_gain from src/even_gain_fn.rs. -/
def Average.next_gain (k : ℚ → ℚ) (c : CompressorState)
    (sample_per_channel : List ℚ) : Option ℚ × CompressorState :=
  let r := Average.loop k c 0 0 sample_per_channel
  (f32_div r.1 (r.2.1 : ℚ), r.2.2)

/-- The for-loop of Minimum::next_gain (src/even_gain_fn.rs): fold `min` over
the channel gains starting from the identity gain 1.0. -/
def Minimum.loop (k : ℚ → ℚ) (c : CompressorState) (gain : ℚ) (idx : ℕ) :
    List ℚ → ℚ × CompressorState
  | [] => (gain, c)
  | s :: rest =>
    let r := next_gain_for_channel k c idx s
    Minimum.loop k r.2 (min gain r.1) (idx + 1) rest

/-- Minimum::next_gain from src/even_gain_fn.rs. -/
def Minimum.next_gain (k : ℚ → ℚ) (c : CompressorState)
    (sample_per_channel : List ℚ) : ℚ × CompressorState :=
  Minimum.loop k c 1 0 sample_per_channel

/-- One frame of Compressor::compress_per_channel (src/dsp_node.rs): the flat
interleaved buffer is represented frame-by-frame; within a frame, sample `j`
is scaled by channel `j`'s own gain. -/
def compress_frame_per_channel (k : ℚ → ℚ) (c : CompressorState) (j : ℕ) :
    List ℚ → List ℚ × CompressorState
  | [] => ([], c)
  | s :: rest =>
    let r := next_gain_for_channel k c j s
    let o := compress_frame_per_channel k r.2 (j + 1) rest
    ((s * r.1) :: o.1, o.2)

/-- Compressor::compress_per_channel from src/dsp_node.rs, with the flat
buffer of n_frames frames times n_channels interleaved samples represented as
a list of frames. -/
def compress_per_channel (k : ℚ → ℚ) (c : CompressorState) :
    List (List ℚ) → List (List ℚ) × CompressorState
  | [] => ([], c)
  | f :: fs =>
    let o := compress_frame_per_channel k c 0 f
    let os := compress_per_channel k o.2 fs
    (o.1 :: os.1, os.2)

/-- Compressor::compress from src/dsp_node.rs: per frame, ask the even-gain
function `egf` for one gain from the frame's samples, then scale every sample
of the frame by it.  `egf` abstracts the EvenGainFunction type parameter. -/
def compress (egf : CompressorState → List ℚ → ℚ × CompressorState)
    (c : CompressorState) : List (List ℚ) → List (List ℚ) × CompressorState
  | [] => ([], c)
  | f :: fs =>
    let g := egf c f
    let os := compress egf g.2 fs
    (f.map (fun s => g.1 * s) :: os.1, os.2)

/-- The state preparation performed by PeakCompressor::audio_requested
(src/dsp_node.rs) before any sample is processed: re-derive attack and
release sizes from the supplied sample rate, then set the channel count. -/
def peak_prepare (c : CompressorState) (hz : ℚ) (n_channels : ℕ) :
    CompressorState :=
  set_channels (update_release_to_sample_hz (update_attack_to_sample_hz c hz) hz)
    n_channels

/-- PeakCompressor::audio_requested from src/dsp_node.rs. -/
def peak_audio_requested (egf : CompressorState → List ℚ → ℚ × CompressorState)
    (c : CompressorState) (hz : ℚ) (n_channels : ℕ)
    (output : List (List ℚ)) : List (List ℚ) × CompressorState :=
  compress egf (peak_prepare c hz n_channels) output

/-- The state preparation performed by RmsCompressor::audio_requested
(src/dsp_node.rs): additionally re-derive the RMS window size. -/
def rms_prepare (c : CompressorState) (hz : ℚ) (n_channels : ℕ) :
    CompressorState :=
  set_channels (update_window_to_sample_hz (update_release_to_sample_hz
    (update_attack_to_sample_hz c hz) hz) hz) n_channels

/-- RmsCompressor::audio_requested from src/dsp_node.rs. -/
def rms_audio_requested (egf : CompressorState → List ℚ → ℚ × CompressorState)
    (c : CompressorState) (hz : ℚ) (n_channels : ℕ)
    (output : List (List ℚ)) : List (List ℚ) × CompressorState :=
  compress egf (rms_prepare c hz n_channels) output

/-- Minimum of a list of gains (1 for the empty list): the value the phrase
"the minimum across the per-channel gains" denotes. -/
def list_min : List ℚ → ℚ
  | [] => 1
  | g :: gs => gs.foldl min g

/-- A concrete two-channel compressor state: threshold 0, slope 1/2, silent
envelopes. -/
def demo_state : CompressorState :=
  { attack_ms := 1, release_ms := 1, window_ms := 1, threshold := 0,
    slope := 1/2, attack_frames := 0, release_frames := 0, window_frames := 0,
    envs := [0, 0] }

/-- A concrete one-channel state whose slope is calc_slope (1/2) = -1 (a
ratio below one), making channel gains exceed 1. -/
def upward_state : CompressorState :=
  { demo_state with slope := calc_slope (1/2), envs := [0] }

/-- The zero coefficient function: smoothing coefficients identically 0, so
the envelope jumps to the rectified sample immediately. -/
def k0 : ℚ → ℚ := fun _ => 0

lemma gain_per_channel_min (t s v : ℚ) :
    gain_per_channel t s v
      = if min v 1 > t then 1 - (min v 1 - t) * s else 1 := by
  have hmin : (if v > 1 then (1 : ℚ) else v) = min v 1 := by
    rcases le_or_lt v 1 with h | h
    · rw [if_neg (not_lt.mpr h), min_eq_left h]
    · rw [if_pos h, min_eq_right h.le]
  simp only [gain_per_channel]
  rw [hmin]

lemma gain_per_channel_slope_zero (t e : ℚ) : gain_per_channel t 0 e = 1 := by
  simp only [gain_per_channel, mul_zero, sub_zero, ite_self]

lemma map_gain_slope_zero (t : ℚ) (l : List ℚ) :
    l.map (gain_per_channel t 0) = List.replicate l.length 1 := by
  induction l with
  | nil => rfl
  | cons x xs ih =>
    simp [gain_per_channel_slope_zero, ih, List.replicate]

/-- C1: Compressor::next_gain_per_channel maps each channel's updated envelope
value through: clamp it to at most the sample identity 1, then return
`1 - (clamped - threshold) * slope` when the clamped value exceeds the
threshold and exactly 1 otherwise; in particular the gain at an envelope value
equal to the threshold is 1, the gain at `threshold + d` (for `0 < d` with
`threshold + d` at most 1) is `1 - d * slope`, and every envelope value of at
least 1 yields the gain of the clamped value 1. -/
theorem next_gain_per_channel_law {D : Type} (c : Compressor D)
    (env_frame : List ℚ) (t s e d : ℚ) :
    c.next_gain_per_channel env_frame
      = env_frame.map (fun v =>
          if min v 1 > c.threshold then 1 - (min v 1 - c.threshold) * c.slope
          else 1)
    ∧ gain_per_channel t s t = 1
    ∧ (0 < d → t + d ≤ 1 → gain_per_channel t s (t + d) = 1 - d * s)
    ∧ (1 ≤ e → gain_per_channel t s e = gain_per_channel t s 1) := by
  refine ⟨?_, ?_, ?_, ?_⟩
  · simp only [Compressor.next_gain_per_channel]
    exact List.map_congr_left fun v _ => gain_per_channel_min c.threshold c.slope v
  · rw [gain_per_channel_min, if_neg (not_lt.mpr (min_le_left t 1))]
  · intro hd hle
    rw [gain_per_channel_min, min_eq_left hle,
      if_pos (by linarith : t + d > t)]
    ring
  · intro he
    rw [gain_per_channel_min, gain_per_channel_min, min_eq_right he, min_self]

theorem next_gain_per_channel_law_witness :
    (0 : ℚ) < 1/4 ∧ (1 : ℚ)/2 + 1/4 ≤ 1
      ∧ gain_per_channel (1/2) (1/2) (1/2 + 1/4) = 1 - (1/4) * (1/2) :=
  ⟨by norm_num, by norm_num,
    (next_gain_per_channel_law (D := Unit) ⟨(), 1, 1, 0, 0⟩ [] (1/2) (1/2) 0
      (1/4)).2.2.1 (by norm_num) (by norm_num)⟩

/-- C3: the frame gain law clamps its input envelope but never its output
gain: for thresholds in [0, 1] and slopes in [0, 1) the gain is never
negative, yet the law's output is unclamped (threshold 0 with the slope
derived from the accepted ratio -1 produces a negative gain), and in the
extreme family threshold = 0, slope close to 1, envelope far above 1 the gain
is near zero (exactly 1/100 at slope 99/100). -/
theorem gain_law_unclamped (t s e : ℚ) :
    (0 ≤ t → t ≤ 1 → 0 ≤ s → s < 1 → 0 ≤ gain_per_channel t s e)
    ∧ gain_per_channel 0 (calc_slope (-1)) 1 < 0
    ∧ gain_per_channel 0 (99/100) 100 = 1/100 := by
  refine ⟨?_, ?_, ?_⟩
  · intro ht0 ht1 hs0 hs1
    rw [gain_per_channel_min]
    split_ifs with h
    · have hm1 : min e 1 ≤ 1 := min_le_right e 1
      have hd0 : 0 ≤ min e 1 - t := by linarith
      have hd1 : min e 1 - t ≤ 1 := by linarith
      nlinarith
    · norm_num
  · norm_num [gain_per_channel, calc_slope]
  · norm_num [gain_per_channel]

theorem gain_law_unclamped_witness :
    (0 : ℚ) ≤ 1/2 ∧ (1 : ℚ)/2 ≤ 1 ∧ (0 : ℚ) ≤ 1/2 ∧ (1 : ℚ)/2 < 1
      ∧ 0 ≤ gain_per_channel (1/2) (1/2) 2 :=
  ⟨by norm_num, by norm_num, by norm_num, by norm_num,
    (gain_law_unclamped (1/2) (1/2) 2).1 (by norm_num) (by norm_num)
      (by norm_num) (by norm_num)⟩

/-- C5: Compressor::new stores as its slope exactly calc_slope ratio, that is
1 - 1/ratio (the ratio itself is not a field of the structure); calc_slope
sends ratio 1 to exactly 0, and every ratio of at least 1 to a slope in
[0, 1). -/
theorem slope_from_ratio {D : Type} (det : D) (a r t ratio : ℚ) :
    (Compressor.new det a r t ratio).slope = calc_slope ratio
    ∧ calc_slope 1 = 0
    ∧ (1 ≤ ratio → 0 ≤ calc_slope ratio ∧ calc_slope ratio < 1) := by
  refine ⟨rfl, by norm_num [calc_slope], ?_⟩
  intro h
  have h0 : 0 < ratio := lt_of_lt_of_le one_pos h
  have h1 : 1 / ratio ≤ 1 := by rw [div_le_one h0]; exact h
  have h2 : 0 < 1 / ratio := by positivity
  unfold calc_slope
  constructor <;> linarith

theorem slope_from_ratio_witness :
    (1 : ℚ) ≤ 2 ∧ 0 ≤ calc_slope 2 ∧ calc_slope 2 < 1 :=
  ⟨by norm_num, (slope_from_ratio (D := Unit) () 1 1 0 2).2.2 (by norm_num)⟩

/-- C6: a Compressor constructed with ratio 1 has slope 0, and its
next_gain_per_channel returns the identity gain 1 for every channel of every
envelope frame — the gain computation is constantly 1, so no compression is
applied. -/
theorem ratio_one_no_compression {D : Type} (det : D) (a r t : ℚ)
    (env_frame : List ℚ) :
    (Compressor.new det a r t 1).slope = 0
    ∧ (Compressor.new det a r t 1).next_gain_per_channel env_frame
        = List.replicate env_frame.length 1 := by
  have hs : (Compressor.new det a r t 1).slope = 0 := by
    show calc_slope 1 = 0
    norm_num [calc_slope]
  refine ⟨hs, ?_⟩
  show env_frame.map (gain_per_channel t (calc_slope 1)) = _
  have h1 : calc_slope 1 = 0 := by norm_num [calc_slope]
  rw [h1, map_gain_slope_zero]

lemma average_loop_spec (k : ℚ → ℚ) :
    ∀ (l : List ℚ) (c : CompressorState) (sum : ℚ) (idx : ℕ),
      (Average.loop k c sum idx l).1 = sum + (channel_gains k c idx l).sum
      ∧ (Average.loop k c sum idx l).2.1 = idx + l.length := by
  intro l
  induction l with
  | nil => intro c sum idx; simp [Average.loop, channel_gains]
  | cons s rest ih =>
    intro c sum idx
    simp only [Average.loop, channel_gains, List.sum_cons, List.length_cons]
    obtain ⟨h1, h2⟩ := ih (next_gain_for_channel k c idx s).2
      (sum + (next_gain_for_channel k c idx s).1) (idx + 1)
    refine ⟨by rw [h1]; ring, by rw [h2]; omega⟩

lemma minimum_loop_spec (k : ℚ → ℚ) :
    ∀ (l : List ℚ) (c : CompressorState) (g : ℚ) (idx : ℕ),
      (Minimum.loop k c g idx l).1
        = List.foldl min g (channel_gains k c idx l) := by
  intro l
  induction l with
  | nil => intro c g idx; rfl
  | cons s rest ih =>
    intro c g idx
    simp only [Minimum.loop, channel_gains, List.foldl_cons]
    exact ih (next_gain_for_channel k c idx s).2
      (min g (next_gain_for_channel k c idx s).1) (idx + 1)

lemma foldl_min_min (l : List ℚ) :
    ∀ a b : ℚ, List.foldl min (min a b) l = min a (List.foldl min b l) := by
  induction l with
  | nil => intro a b; rfl
  | cons x xs ih =>
    intro a b
    simp only [List.foldl_cons]
    rw [min_assoc, ih]

lemma foldl_min_le (l : List ℚ) : ∀ a : ℚ, List.foldl min a l ≤ a := by
  induction l with
  | nil => intro a; exact le_refl a
  | cons x xs ih =>
    intro a
    exact le_trans (ih (min a x)) (min_le_left a x)

lemma foldl_min_of_le (l : List ℚ) :
    ∀ a : ℚ, (∀ g ∈ l, a ≤ g) → List.foldl min a l = a := by
  induction l with
  | nil => intro a _; rfl
  | cons x xs ih =>
    intro a h
    simp only [List.foldl_cons]
    rw [min_eq_left (h x (List.mem_cons_self x xs))]
    exact ih a fun g hg => h g (List.mem_cons_of_mem x hg)

/-- C10: Minimum::next_gain folds `min` over the per-channel gains starting
from the identity gain 1.0, so its result equals the minimum of 1.0 and the
channel gains, never exceeds 1.0, and is exactly 1.0 whenever every channel
gain exceeds 1.0 (possible when the slope is negative, i.e. ratio below 1) —
including for the empty sample sequence. -/
theorem minimum_gain_capped (k : ℚ → ℚ) (c : CompressorState)
    (samples : List ℚ) :
    (Minimum.next_gain k c samples).1
      = List.foldl min 1 (channel_gains k c 0 samples)
    ∧ (Minimum.next_gain k c samples).1 ≤ 1
    ∧ ((∀ g ∈ channel_gains k c 0 samples, 1 < g) →
        (Minimum.next_gain k c samples).1 = 1) := by
  have h := minimum_loop_spec k samples c 1 0
  refine ⟨h, ?_, ?_⟩
  · show (Minimum.loop k c 1 0 samples).1 ≤ 1
    rw [h]; exact foldl_min_le _ 1
  · intro hall
    show (Minimum.loop k c 1 0 samples).1 = 1
    rw [h]
    exact foldl_min_of_le _ 1 fun g hg => (hall g hg).le

theorem minimum_gain_capped_witness :
    (∀ g ∈ channel_gains k0 upward_state 0 [2], 1 < g)
    ∧ (Minimum.next_gain k0 upward_state [2]).1 = 1 :=
  ⟨by norm_num [channel_gains, next_gain_for_channel, envelope_step, k0,
      upward_state, demo_state, calc_slope, abs_of_nonneg],
    (minimum_gain_capped k0 upward_state [2]).2.2
      (by norm_num [channel_gains, next_gain_for_channel, envelope_step, k0,
        upward_state, demo_state, calc_slope, abs_of_nonneg])⟩

/-- C2 counterexample: for the one-channel state with the slope derived from
the ratio 1/2 (slope = -1) and the sample 2, the single per-channel gain is 3,
so the minimum across the per-channel gains is 3, yet Minimum::next_gain
returns 1 — the claim that the returned gain is the minimum across the
per-channel gains fails. -/
theorem minimum_not_min_of_gains :
    (Minimum.next_gain k0 upward_state [2]).1
      ≠ list_min (channel_gains k0 upward_state 0 [2]) := by
  norm_num [Minimum.next_gain, Minimum.loop, next_gain_for_channel,
    envelope_step, k0, upward_state, demo_state, calc_slope, channel_gains,
    list_min, abs_of_nonneg, min_def]

/-- C2 (amended): for every non-empty sample sequence, Minimum::next_gain
returns the minimum of the identity gain 1.0 and the per-channel gains
(because its accumulator starts at 1.0); this equals the minimum across the
per-channel gains whenever some channel gain is at most 1.  For the concrete
two-channel frame with channel gains 1/2 and 9/10 it returns 1/2. -/
theorem minimum_gain_min_with_identity (k : ℚ → ℚ) (c : CompressorState)
    (samples : List ℚ) (h : samples ≠ []) :
    (Minimum.next_gain k c samples).1
      = min 1 (list_min (channel_gains k c 0 samples))
    ∧ (Minimum.next_gain k0 demo_state [1, 1/5]).1 = 1/2 := by
  constructor
  · cases samples with
    | nil => exact absurd rfl h
    | cons s rest =>
      show (Minimum.loop k c 1 0 (s :: rest)).1 = _
      rw [minimum_loop_spec k (s :: rest) c 1 0]
      simp only [channel_gains, List.foldl_cons, list_min]
      exact foldl_min_min _ 1 _
  · norm_num [Minimum.next_gain, Minimum.loop, next_gain_for_channel,
      envelope_step, k0, demo_state, abs_of_nonneg, min_def]

theorem minimum_gain_min_with_identity_witness :
    ([1, (1 : ℚ)/5] : List ℚ) ≠ []
    ∧ (Minimum.next_gain k0 demo_state [1, 1/5]).1
        = min 1 (list_min (channel_gains k0 demo_state 0 [1, 1/5])) :=
  ⟨by simp, (minimum_gain_min_with_identity k0 demo_state [1, 1/5]
    (by simp)).1⟩

/-- C7: for every non-empty sample sequence, Average::next_gain returns the
arithmetic mean of the per-channel gains (the loop's running sum divided by
the channel count); for the concrete two-channel frame with channel gains 1/2
and 9/10 it returns 7/10. -/
theorem average_gain_is_mean (k : ℚ → ℚ) (c : CompressorState)
    (samples : List ℚ) (h : samples ≠ []) :
    (Average.next_gain k c samples).1
      = some ((channel_gains k c 0 samples).sum / (samples.length : ℚ))
    ∧ (Average.next_gain k0 demo_state [1, 1/5]).1 = some (7/10) := by
  constructor
  · obtain ⟨h1, h2⟩ := average_loop_spec k samples c 0 0
    have hlen : ((samples.length : ℕ) : ℚ) ≠ 0 := by
      have : samples.length ≠ 0 := fun hh => h (List.length_eq_zero.mp hh)
      exact_mod_cast this
    simp only [Average.next_gain]
    rw [h1, h2, zero_add, zero_add, f32_div, if_neg hlen]
  · norm_num [Average.next_gain, Average.loop, next_gain_for_channel,
      envelope_step, k0, demo_state, abs_of_nonneg, f32_div]

theorem average_gain_is_mean_witness :
    ([1, (1 : ℚ)/5] : List ℚ) ≠ []
    ∧ (Average.next_gain k0 demo_state [1, 1/5]).1
        = some ((channel_gains k0 demo_state 0 [1, 1/5]).sum
            / (([1, (1 : ℚ)/5] : List ℚ).length : ℚ)) :=
  ⟨by simp, (average_gain_is_mean k0 demo_state [1, 1/5] (by simp)).1⟩

/-- C4: on an empty per-channel sample sequence, Average::next_gain divides
the zero sum by the zero channel count, yielding the non-finite NaN f32
result (modelled as none), while Minimum::next_gain returns its untouched
accumulator, the identity gain 1.0 — a deliberate asymmetry. -/
theorem empty_channels_asymmetry (k : ℚ → ℚ) (c : CompressorState) :
    (Average.next_gain k c []).1 = none
    ∧ (Minimum.next_gain k c []).1 = 1 := by
  constructor
  · simp [Average.next_gain, Average.loop, f32_div]
  · rfl

/-- C8: in every audio_requested call, the attack and release sizes (and, for
the RMS compressor, the window size) are re-derived from the sample rate
supplied with that call before any sample is processed — the buffer is handed
to compress only after the preparation step, the prepared state carries
exactly the freshly derived values, and the call's result does not depend on
whatever frame sizes were left over from a previous rate. -/
theorem audio_requested_rederives_coefficients
    (egf : CompressorState → List ℚ → ℚ × CompressorState)
    (c : CompressorState) (hz a r w : ℚ) (n : ℕ) (output : List (List ℚ)) :
    (peak_prepare c hz n).attack_frames = ms_samples c.attack_ms hz
    ∧ (peak_prepare c hz n).release_frames = ms_samples c.release_ms hz
    ∧ peak_audio_requested egf c hz n output
        = compress egf (peak_prepare c hz n) output
    ∧ peak_audio_requested egf
        { c with attack_frames := a, release_frames := r } hz n output
        = peak_audio_requested egf c hz n output
    ∧ (rms_prepare c hz n).attack_frames = ms_samples c.attack_ms hz
    ∧ (rms_prepare c hz n).release_frames = ms_samples c.release_ms hz
    ∧ (rms_prepare c hz n).window_frames = ms_samples c.window_ms hz
    ∧ rms_audio_requested egf c hz n output
        = compress egf (rms_prepare c hz n) output
    ∧ rms_audio_requested egf
        { c with attack_frames := a, release_frames := r,
                 window_frames := w } hz n output
        = rms_audio_requested egf c hz n output := by
  exact ⟨rfl, rfl, rfl, rfl, rfl, rfl, rfl, rfl, rfl⟩

lemma getD_set_ne (l : List ℚ) (i j : ℕ) (hij : i ≠ j) (v : ℚ) :
    (l.set i v).getD j 0 = l.getD j 0 := by
  rw [List.getD_eq_getElem?_getD, List.getD_eq_getElem?_getD,
    List.getElem?_set_ne hij]

lemma getD_set_self (l : List ℚ) (i : ℕ) (v : ℚ) :
    (l.set i v).getD i 0 = if i < l.length then v else 0 := by
  split_ifs with h
  · rw [List.getD_eq_getElem?_getD, List.getElem?_set_eq_of_lt v h]
    rfl
  · rw [List.set_eq_of_length_le (le_of_not_lt h),
      List.getD_eq_default l 0 (le_of_not_lt h)]

/-- Agreement of two compressor states on everything except the envelope of
channel 0: all scalar fields, the channel count, and every envelope of a
nonzero channel. -/
def agree_except_ch0 (c₁ c₂ : CompressorState) : Prop :=
  c₁.threshold = c₂.threshold ∧ c₁.slope = c₂.slope
  ∧ c₁.attack_frames = c₂.attack_frames
  ∧ c₁.release_frames = c₂.release_frames
  ∧ c₁.envs.length = c₂.envs.length
  ∧ ∀ i : ℕ, i ≠ 0 → c₁.envs.getD i 0 = c₂.envs.getD i 0

lemma agree_except_ch0_refl (c : CompressorState) : agree_except_ch0 c c :=
  ⟨rfl, rfl, rfl, rfl, rfl, fun _ _ => rfl⟩

lemma ngfc_ch0_agree (k : ℚ → ℚ) (c₁ c₂ : CompressorState)
    (hag : agree_except_ch0 c₁ c₂) (a₁ a₂ : ℚ) :
    agree_except_ch0 (next_gain_for_channel k c₁ 0 a₁).2
      (next_gain_for_channel k c₂ 0 a₂).2 := by
  obtain ⟨ht, hs, ha, hr, hl, he⟩ := hag
  refine ⟨ht, hs, ha, hr, ?_, ?_⟩
  · simp only [next_gain_for_channel, List.length_set]
    exact hl
  · intro i hi
    simp only [next_gain_for_channel]
    rw [getD_set_ne _ 0 i (fun hh => hi hh.symm),
      getD_set_ne _ 0 i (fun hh => hi hh.symm)]
    exact he i hi

lemma ngfc_agree (k : ℚ → ℚ) (c₁ c₂ : CompressorState)
    (hag : agree_except_ch0 c₁ c₂) (j : ℕ) (hj : j ≠ 0) (s : ℚ) :
    (next_gain_for_channel k c₁ j s).1 = (next_gain_for_channel k c₂ j s).1
    ∧ agree_except_ch0 (next_gain_for_channel k c₁ j s).2
        (next_gain_for_channel k c₂ j s).2 := by
  obtain ⟨ht, hs, ha, hr, hl, he⟩ := hag
  have hstep : envelope_step (k c₁.attack_frames) (k c₁.release_frames)
      (c₁.envs.getD j 0) s
      = envelope_step (k c₂.attack_frames) (k c₂.release_frames)
        (c₂.envs.getD j 0) s := by
    rw [ha, hr, he j hj]
  constructor
  · simp only [next_gain_for_channel]
    rw [hstep, ht, hs]
  · refine ⟨ht, hs, ha, hr, ?_, ?_⟩
    · simp only [next_gain_for_channel, List.length_set]
      exact hl
    · intro i hi
      simp only [next_gain_for_channel]
      by_cases hij : i = j
      · subst hij
        rw [getD_set_self, getD_set_self, hstep, hl]
      · rw [getD_set_ne _ j i (fun hh => hij hh.symm),
          getD_set_ne _ j i (fun hh => hij hh.symm)]
        exact he i hi

lemma frame2_independent (k : ℚ → ℚ) (c₁ c₂ : CompressorState)
    (hag : agree_except_ch0 c₁ c₂) (a₁ a₂ b : ℚ) :
    (compress_frame_per_channel k c₁ 0 [a₁, b]).1.getD 1 0
      = (compress_frame_per_channel k c₂ 0 [a₂, b]).1.getD 1 0
    ∧ agree_except_ch0 (compress_frame_per_channel k c₁ 0 [a₁, b]).2
        (compress_frame_per_channel k c₂ 0 [a₂, b]).2 := by
  have h0 := ngfc_ch0_agree k c₁ c₂ hag a₁ a₂
  have h1 := ngfc_agree k (next_gain_for_channel k c₁ 0 a₁).2
    (next_gain_for_channel k c₂ 0 a₂).2 h0 1 one_ne_zero b
  simp only [compress_frame_per_channel, List.getD_cons_succ,
    List.getD_cons_zero]
  exact ⟨by rw [h1.1], h1.2⟩

lemma compress_pc_zip_agree (k : ℚ → ℚ) :
    ∀ (l₁ l₂ r : List ℚ) (c₁ c₂ : CompressorState),
      agree_except_ch0 c₁ c₂ → l₁.length = l₂.length →
      (compress_per_channel k c₁
          (List.zipWith (fun a b => [a, b]) l₁ r)).1.map (fun f => f.getD 1 0)
        = (compress_per_channel k c₂
            (List.zipWith (fun a b => [a, b]) l₂ r)).1.map
              (fun f => f.getD 1 0)
      ∧ agree_except_ch0
          (compress_per_channel k c₁
            (List.zipWith (fun a b => [a, b]) l₁ r)).2
          (compress_per_channel k c₂
            (List.zipWith (fun a b => [a, b]) l₂ r)).2 := by
  intro l₁
  induction l₁ with
  | nil =>
    intro l₂ r c₁ c₂ hag hlen
    have : l₂ = [] := List.length_eq_zero.mp hlen.symm
    subst this
    exact ⟨rfl, hag⟩
  | cons a₁ t₁ ih =>
    intro l₂ r c₁ c₂ hag hlen
    cases l₂ with
    | nil => exact absurd hlen (by simp)
    | cons a₂ t₂ =>
      cases r with
      | nil => exact ⟨rfl, hag⟩
      | cons b rs =>
        simp only [List.zipWith_cons_cons, compress_per_channel, List.map_cons]
        have hfr := frame2_independent k c₁ c₂ hag a₁ a₂ b
        have hrec := ih t₂ rs (compress_frame_per_channel k c₁ 0 [a₁, b]).2
          (compress_frame_per_channel k c₂ 0 [a₂, b]).2 hfr.2
          (by simpa using hlen)
        exact ⟨by rw [hfr.1, hrec.1], hrec.2⟩

/-- C9: under compress_per_channel, the output of channel 1 depends only on
channel 1's own inputs and envelope state — two runs from the same state on
two-channel frames that differ only in channel 0's samples produce identical
channel-1 output streams; concretely, the frame [1, 1/5] (channel gains 1/2
and 9/10) yields channel 0 scaled by its own gain 1/2 and channel 1 by its
own gain 9/10. -/
theorem compress_per_channel_ch1_independent (k : ℚ → ℚ)
    (c : CompressorState) (l₁ l₂ r : List ℚ) (h : l₁.length = l₂.length) :
    (compress_per_channel k c
        (List.zipWith (fun a b => [a, b]) l₁ r)).1.map (fun f => f.getD 1 0)
      = (compress_per_channel k c
          (List.zipWith (fun a b => [a, b]) l₂ r)).1.map (fun f => f.getD 1 0)
    ∧ (compress_per_channel k0 demo_state [[1, 1/5]]).1
        = [[1 * (1/2), (1/5) * (9/10)]] := by
  constructor
  · exact (compress_pc_zip_agree k l₁ l₂ r c c (agree_except_ch0_refl c) h).1
  · norm_num [compress_per_channel, compress_frame_per_channel,
      next_gain_for_channel, envelope_step, k0, demo_state, abs_of_nonneg]

theorem compress_per_channel_ch1_independent_witness :
    ([(5 : ℚ)] : List ℚ).length = ([(0 : ℚ)] : List ℚ).length
    ∧ (compress_per_channel k0 demo_state
        (List.zipWith (fun a b => [a, b]) [(5 : ℚ)] [(1 : ℚ)/5])).1.map
          (fun f => f.getD 1 0)
      = (compress_per_channel k0 demo_state
          (List.zipWith (fun a b => [a, b]) [(0 : ℚ)] [(1 : ℚ)/5])).1.map
            (fun f => f.getD 1 0) :=
  ⟨rfl, (compress_per_channel_ch1_independent k0 demo_state [5] [0] [1/5]
    rfl).1⟩

end Spec2Proof
